import Mathlib

/-!
Formal model of the hybrid incentive-to-company matching pipeline of this
repository (files `matching.py` and `llm_services.py`).

The model is a shallow embedding: Python dictionaries holding the parsed
criteria record become a structure of loosely-typed values (`PyVal`), the
SQLAlchemy rows become structures over the fields the pipeline reads, float
scores become exact rationals (every comparison made by the code — against
the rule threshold `0.1` and against `0.00` — distinguishes the same values
over `ℚ` as over IEEE doubles for all scores the code can produce), and the
external LLM call is an oracle parameter.  Uncaught Python exceptions are
modelled as an explicit error outcome.
-/

set_option linter.unusedVariables false

/-- Lowercasing of a string, character by character.  Models Python
`str.lower` on the characters the scorer compares (`Char.toLower` agrees with
Python on the ASCII range; the non-ASCII characters appearing in the
comparisons of `matching.py` are already lowercase). -/
def strLower (s : String) : String := s.map Char.toLower

/-- Boolean test that `needle` occurs contiguously inside `hay`, over
character lists. -/
def containsSub (hay needle : List Char) : Bool :=
  match hay with
  | [] => needle.isEmpty
  | _ :: t => needle.isPrefixOf hay || containsSub t needle

/-- Python substring test `needle in hay` over code points. -/
def strIn (needle hay : String) : Bool :=
  containsSub hay.toList needle.toList

/-- Element of a `caes` list in the parsed dictionary.  `hashable s`
models a hashable element: string codes directly, and hashable non-strings
(numbers, tuples, `None`) behave in the set emptiness test and the
intersection with a set of strings exactly as fresh strings that equal no
company code, so a string stands for them faithfully.  `unhashable` models
a list, dict or set element: building `set(caes_value)` (matching.py line
21) then raises `TypeError`, which nothing catches. -/
inductive PyElem where
  | hashable : String → PyElem
  | unhashable : PyElem
  deriving DecidableEq

/-- Value found under one key of the parsed `ai_description` dictionary, as
`dict.get` returns it in `calculate_match_score` (matching.py lines 20, 33,
41): the key can be absent (`vNone`, Python `None`), hold a string, hold a
list of elements — hashable or not, see `PyElem` — or hold a value of any
other type (`vOther`), which every `isinstance` test in the scorer
rejects. -/
inductive PyVal where
  | vNone : PyVal
  | vStr : String → PyVal
  | vList : List PyElem → PyVal
  | vOther : PyVal
  deriving DecidableEq

/-- Outcome of reading `company.cae_secondary_codes` in matching.py lines
23-27.  `absent` models a NULL or empty (falsy) column, which skips the
parse; `malformed` models `json.loads` raising `JSONDecodeError`/`TypeError`
or producing a non-iterable (the `set.update` call then raises `TypeError`),
both caught by the `except` clause; `codes xs` models a parse producing an
iterable, whose elements `set.update` adds (elements that are not strings
compare unequal to every string code, as fresh strings would). -/
inductive SecondaryCodes where
  | absent : SecondaryCodes
  | malformed : SecondaryCodes
  | codes : List String → SecondaryCodes
  deriving DecidableEq

/-- Company row (database.py lines 29-64), restricted to the fields the
matching pipeline reads.  `latest_number_of_employees` is an integer: the
CSV loader (database.py lines 150-151) always stores an int for this column.
Fields that only feed the LLM prompt text (name, label, description) are not
modelled because no control flow depends on them. -/
structure Company where
  nif_code : String
  cae_primary_code : String
  cae_secondary_codes : SecondaryCodes
  city : Option String
  latest_number_of_employees : Int
  deriving DecidableEq

/-- Parsed `ai_description` dictionary of an incentive, restricted to the
keys the pipeline reads: `caes`, `geographic_location` and `dimension` feed
`calculate_match_score`; `hasObject` and `hasCriterios` record whether the
keys `object` and `criterios` are present, which `score_companies_for_incentive`
(llm_services.py lines 143-144) accesses outside of any `try` block — their
string values only feed the prompt and are not modelled. -/
structure Criteria where
  caes : PyVal
  geographic_location : PyVal
  dimension : PyVal
  hasObject : Bool
  hasCriterios : Bool
  deriving DecidableEq

/-- Outcome of `json.loads(incentive.ai_description)` (matching.py line 85):
the text fails to parse (`malformed`, caught and skipped), parses to a value
that is not a dictionary (`nonDict`; the subsequent `.get` call in
`calculate_match_score` then raises `AttributeError`, which nothing
catches), or parses to a dictionary, abstracted by `Criteria`. -/
inductive AiDesc where
  | malformed : AiDesc
  | nonDict : AiDesc
  | record : Criteria → AiDesc
  deriving DecidableEq

/-- Incentive row (database.py lines 10-27), restricted to the fields the
matching pipeline reads. -/
structure Incentive where
  incentive_id : Nat
  ai_description : AiDesc
  deriving DecidableEq

/-- Row of the `matches` table (database.py lines 66-78) as inserted by
`find_and_store_matches`. -/
structure MatchRow where
  incentive_id : Nat
  company_nif : String
  score : ℚ
  deriving DecidableEq

/-- Python `round(x, 4)`: the nearest multiple of `1/10000`.  Python rounds
ties to even, Mathlib `round` rounds ties up; every value this model rounds
is an exact multiple of `1/10000`, so no tie ever arises and the two agree. -/
def round4 (x : ℚ) : ℚ := ((round (x * 10000) : ℤ) : ℚ) / 10000

/-- Whether evaluating `set(caes_value)` raises (matching.py line 21):
true exactly when the value under `caes` is a list containing an
unhashable element.  The test depends on the criteria record only, so the
scorer raises for every company or for none. -/
def caesUnhashable (d : Criteria) : Bool :=
  match d.caes with
  | PyVal.vList xs => xs.any (fun e => match e with
      | PyElem.unhashable => true
      | _ => false)
  | _ => false

/-- Set of CAE codes the incentive declares (matching.py lines 20-21):
`set(caes_value)` when the value under `caes` is a list of hashable
elements, the empty set for a value of any other type or an absent key.
When the list holds an unhashable element the set is never built — the
scorer raises instead, see `calculate_match_score` — and this projection
is never consulted by a returning execution. -/
def incentiveCaes (d : Criteria) : List String :=
  match d.caes with
  | PyVal.vList xs => xs.filterMap (fun e => match e with
      | PyElem.hashable s => some s
      | PyElem.unhashable => none)
  | _ => []

/-- Secondary CAE codes contributed by `company.cae_secondary_codes`
(matching.py lines 23-27): the parsed list when the column parses, the empty
set when the column is falsy or the parse fails. -/
def secondaryCodes (c : Company) : List String :=
  match c.cae_secondary_codes with
  | SecondaryCodes.codes xs => xs
  | _ => []

/-- Company code set `{primary_code} ∪ secondary_codes` (matching.py lines
22-27), as a list whose membership is what the intersection test reads. -/
def companyCaes (c : Company) : List String :=
  c.cae_primary_code :: secondaryCodes c

/-- Industry component of the deterministic score (matching.py lines 14-31,
weight 50): full weight when the incentive declares no codes, otherwise full
weight exactly when the company code set intersects the incentive code set. -/
def caeScore (d : Criteria) (c : Company) : ℤ :=
  if (incentiveCaes d).isEmpty then 50
  else if (companyCaes c).any (fun x => (incentiveCaes d).contains x) then 50
  else 0

/-- Geographic component of the deterministic score (matching.py lines
33-39, weight 30): the scope string is lowercased (non-strings degrade to
the empty string), the city defaults to `"unknown"` when NULL or empty;
full weight when the scope contains `"nacional"` or is empty, otherwise
full weight exactly when the city is not `"unknown"` and occurs inside the
scope string. -/
def locationScore (d : Criteria) (c : Company) : ℤ :=
  let incentive_loc := match d.geographic_location with
    | PyVal.vStr s => strLower s
    | _ => ""
  let company_city := strLower (match c.city with
    | some s => if s = "" then "unknown" else s
    | none => "unknown")
  if strIn "nacional" incentive_loc || incentive_loc == "" then 30
  else if company_city != "unknown" && strIn company_city incentive_loc then 30
  else 0

/-- Size component of the deterministic score (matching.py lines 41-53,
weight 20): the dimension string is lowercased (non-strings degrade to
`"não aplicável"`); full weight when it contains `"não aplicável"` or is
empty; otherwise weight for a PME-only dimension iff `0 < employees < 250`,
for a large-only dimension iff `employees ≥ 250`, and for a dimension naming
both iff either holds. -/
def sizeScore (d : Criteria) (c : Company) : ℤ :=
  let incentive_dim := match d.dimension with
    | PyVal.vStr s => strLower s
    | _ => "não aplicável"
  let employees := c.latest_number_of_employees
  let is_pme := decide (0 < employees ∧ employees < 250)
  let is_large := decide (250 ≤ employees)
  if strIn "não aplicável" incentive_dim || incentive_dim == "" then 20
  else if strIn "pme" incentive_dim && !strIn "grande" incentive_dim && is_pme then 20
  else if strIn "grande" incentive_dim && !strIn "pme" incentive_dim && is_large then 20
  else if strIn "pme" incentive_dim && strIn "grande" incentive_dim && (is_pme || is_large) then 20
  else 0

/-- Value of the deterministic scorer on the executions in which it
returns (matching.py lines 6-55): the three weighted components summed and
normalised by the maximum score 100, rounded to 4 decimal places.  The
three `if/elif` chains of the source are independent (each touches only
its own dictionary key and company fields), so the running `score +=`
accumulation equals this sum. -/
def matchScoreVal (incentive_details : Criteria) (company : Company) : ℚ :=
  round4 (((caeScore incentive_details company
      + locationScore incentive_details company
      + sizeScore incentive_details company : ℤ) : ℚ) / 100)

/-- Deterministic scorer `calculate_match_score` (matching.py lines 6-55).
The function is not total: `set(caes_value)` at line 21 raises an uncaught
`TypeError` whenever the `caes` value is a list containing an unhashable
element — before any other field is read, for any company; on every other
input it returns `matchScoreVal`. -/
def calculate_match_score (incentive_details : Criteria) (company : Company) :
    Except String ℚ :=
  if caesUnhashable incentive_details then
    Except.error "TypeError: unhashable caes element"
  else
    Except.ok (matchScoreVal incentive_details company)

/-- Insertion step of a stable descending sort by a rational key: `x` is
placed before the first element whose key is not strictly greater than the
key of `x`. -/
def insertDesc (key : α → ℚ) (x : α) : List α → List α
  | [] => [x]
  | y :: ys => if key y ≤ key x then x :: y :: ys else y :: insertDesc key x ys

/-- Stable descending sort by a rational key.  Models Python
`sorted(l, key=key, reverse=True)` (matching.py lines 92 and 104):
`sorted` is stable and `reverse=True` keeps elements with equal keys in
their original order, which this insertion sort reproduces (proved below:
it permutes the input, sorts keys descending, and preserves the relative
order of elements of equal key). -/
def sortDescStable (key : α → ℚ) : List α → List α
  | [] => []
  | x :: xs => insertDesc key x (sortDescStable key xs)

/-- Rule-stage threshold (matching.py line 78).  The Python literal is the
IEEE double nearest to 1/10, which orders identically against every score
`calculate_match_score` can produce (none lies between the two). -/
def MIN_RULE_SCORE : ℚ := 1 / 10

/-- Rule-stage candidate-list bound (matching.py line 77). -/
def N : Nat := 50

/-- Rule-stage candidate selection (matching.py lines 90-93, and section
4.3 step b of the specification): score every company with the
deterministic scorer, keep those with score strictly greater than
`MIN_RULE_SCORE`, sort descending by score — stably, so that ties keep the
original iteration order — and take the first `N`.  Each
`calculate_match_score` call contributes its returned value
`matchScoreVal`; the raising case aborts the whole comprehension instead,
which `processIncentive` models before consulting this definition. -/
def ruleCandidates (incentive_details : Criteria) (companies : List Company) : List Company :=
  let scores := companies.map (fun company => (company, matchScoreVal incentive_details company))
  let filtered_scores := scores.filter (fun item => decide (MIN_RULE_SCORE < item.2))
  let top_n := (sortDescStable (fun x => x.2) filtered_scores).take N
  top_n.map (fun x => x.1)

/-- One element of the JSON list parsed out of the LLM response in
`score_companies_for_incentive` (llm_services.py line 164).  `nif = none`
models an item on which `item` subscripted with the key `nif` raises
(missing key or non-dictionary item); `score = none` models an item on
which `float(item[...])` for the key `score` raises (missing key or a value
`float` cannot convert); `score = some q` models a successful conversion to
the double of value `q`. -/
structure RespItem where
  nif : Option String
  score : Option ℚ
  deriving DecidableEq

/-- Outcome of the LLM call plus JSON parse (llm_services.py lines 163-164):
`fail` models `generate_content` raising (timeout included) or
`json.loads(response.text)` raising, both caught by the `except` clause;
`ok items` models a successful parse to a list.  A parse to a truthy
non-list value behaves, in the orchestrator, like a list containing an item
with `score = none` (it raises inside the filtering comprehension), and a
falsy value like the empty list. -/
inductive LLMResp where
  | fail : LLMResp
  | ok : List RespItem → LLMResp
  deriving DecidableEq

/-- External semantic-scoring capability: what `model.generate_content`
followed by `json.loads` produces for the prompt built from an incentive
and a candidate batch.  A fixed function models one run of the pipeline
(the prompt is a function of the incentive record and the batch). -/
def LLMOracle : Type := Incentive → List Company → LLMResp

/-- Semantic scorer adapter `score_companies_for_incentive`
(llm_services.py lines 137-168).  The function re-parses
`incentive.ai_description` and reads the keys `object` and `criterios`
outside of the `try` block, so a missing key raises `KeyError` and
propagates; only the LLM call and the parse of its response are guarded,
degrading to a zero score for every company of the batch. -/
def score_companies_for_incentive (llm : LLMOracle) (incentive : Incentive)
    (companies_batch : List Company) : Except String (List RespItem) :=
  match incentive.ai_description with
  | AiDesc.malformed => Except.error "json.loads raised on ai_description"
  | AiDesc.nonDict => Except.error "TypeError: structured data is not a dictionary"
  | AiDesc.record d =>
    if d.hasObject then
      if d.hasCriterios then
        match llm incentive companies_batch with
        | LLMResp.fail =>
          Except.ok (companies_batch.map (fun company => ⟨some company.nif_code, some 0⟩))
        | LLMResp.ok scores => Except.ok scores
      else Except.error "KeyError: criterios"
    else Except.error "KeyError: object"

/-- Filtering comprehension of matching.py line 103: keep the items whose
score converts to a float strictly greater than zero; the first item whose
score access or conversion raises aborts the whole comprehension (second
component), before any row is inserted. -/
def filterPos : List RespItem → List RespItem × Option String
  | [] => ([], none)
  | item :: rest =>
    match item.score with
    | none => ([], some "float(item[score]) raised")
    | some s =>
      let (r, e) := filterPos rest
      (if 0 < s then item :: r else r, e)

/-- Insertion loop of matching.py lines 105-109: one `MatchRow` per item,
carrying the semantic score; an item whose `nif` access raises aborts the
loop, the rows already added staying pending in the session (they are never
committed, because the exception propagates past the final commit). -/
def insertRows (incentive_id : Nat) : List RespItem → List MatchRow × Option String
  | [] => ([], none)
  | item :: rest =>
    match item.nif with
    | none => ([], some "KeyError: nif")
    | some nif =>
      let (rs, e) := insertRows incentive_id rest
      (⟨incentive_id, nif, item.score.getD 0⟩ :: rs, e)

/-- Observable outcome of the body of the per-incentive loop of
`find_and_store_matches` for one incentive: the rows added to the session,
the adapter invocation if one happened (the incentive together with the
exact batch passed at matching.py line 100), and the uncaught exception if
one was raised. -/
structure IncOutcome where
  rows : List MatchRow
  call : Option (Incentive × List Company)
  err : Option String
  deriving DecidableEq

/-- Body of the per-incentive loop of `find_and_store_matches`
(matching.py lines 82-111), for one incentive against the full company
list.  The candidate selection of lines 90-93 is the `ruleCandidates`
definition above, which spells out those lines. -/
def processIncentive (llm : LLMOracle) (k : Nat) (companies : List Company)
    (incentive : Incentive) : IncOutcome :=
  match incentive.ai_description with
  | AiDesc.malformed => ⟨[], none, none⟩
  | AiDesc.nonDict =>
    if companies.isEmpty then ⟨[], none, none⟩
    else ⟨[], none, some "AttributeError: get on non-dictionary ai_description"⟩
  | AiDesc.record incentive_details =>
    if caesUnhashable incentive_details && !companies.isEmpty then
      ⟨[], none, some "TypeError: unhashable caes element"⟩
    else
    let top_n_companies := ruleCandidates incentive_details companies
    if top_n_companies.isEmpty then ⟨[], none, none⟩
    else
      match score_companies_for_incentive llm incentive top_n_companies with
      | Except.error e => ⟨[], some (incentive, top_n_companies), some e⟩
      | Except.ok llm_scores =>
        if llm_scores.isEmpty then ⟨[], some (incentive, top_n_companies), none⟩
        else
          let (llm_scores_filtered, ferr) := filterPos llm_scores
          match ferr with
          | some e => ⟨[], some (incentive, top_n_companies), some e⟩
          | none =>
            let top_k_scores := (sortDescStable (fun x => x.score.getD 0) llm_scores_filtered).take k
            let (rows, ierr) := insertRows incentive.incentive_id top_k_scores
            ⟨rows, some (incentive, top_n_companies), ierr⟩

/-- Per-incentive loop of `find_and_store_matches` over the incentive list:
accumulated session rows, accumulated adapter invocations in order, and the
first uncaught exception, which stops the loop. -/
def processAll (llm : LLMOracle) (k : Nat) (companies : List Company) :
    List Incentive → List MatchRow × List (Incentive × List Company) × Option String
  | [] => ([], [], none)
  | incentive :: rest =>
    let o := processIncentive llm k companies incentive
    match o.err with
    | some e => (o.rows, o.call.toList, some e)
    | none =>
      let (rs, cs, e) := processAll llm k companies rest
      (o.rows ++ rs, o.call.toList ++ cs, e)

/-- Observable result of one call of `find_and_store_matches`: the Python
return value when the call returns (`Except.ok`; the function always
returns `None`, modelled `Option.none`, both at the early return of line 71
and at the fall-through end) or the uncaught exception (`Except.error`);
the committed content of the `matches` table afterwards; the final value of
the `total_matches_found` counter (number of `db.add` calls executed); and
the adapter invocations in order. -/
structure RunResult where
  result : Except String (Option Nat)
  matchesTable : List MatchRow
  totalMatchesFound : Nat
  calls : List (Incentive × List Company)

/-- Orchestrator `find_and_store_matches` (matching.py lines 57-114) over a
database whose `matches` table holds `matches0`.  With an empty incentive
or company list the function returns at line 71 before touching the table.
Otherwise the delete of line 74 is committed at line 75, so on an uncaught
exception later in the loop the committed table is empty — the pending
`db.add` rows are only committed by line 113 when the loop completes. -/
def find_and_store_matches (llm : LLMOracle) (k : Nat)
    (incentives : List Incentive) (companies : List Company)
    (matches0 : List MatchRow) : RunResult :=
  if incentives.isEmpty || companies.isEmpty then
    ⟨Except.ok none, matches0, 0, []⟩
  else
    let (rows, calls, err) := processAll llm k companies incentives
    match err with
    | some e => ⟨Except.error e, [], rows.length, calls⟩
    | none => ⟨Except.ok none, rows, rows.length, calls⟩

/-- Adapter invocation the specification predicts for one incentive
(section 4.3 steps a-d): none when the criteria record does not parse to a
dictionary or no candidate survives the rule stage, otherwise exactly one
call carrying the rule-stage candidate batch. -/
def expectedCall (companies : List Company) (incentive : Incentive) :
    Option (Incentive × List Company) :=
  match incentive.ai_description with
  | AiDesc.record d =>
    let cands := ruleCandidates d companies
    if cands.isEmpty then none else some (incentive, cands)
  | _ => none

/-- Match rows the specification predicts for one incentive (section 4.3
steps b-f): the adapter response for the rule-stage candidate batch — zero
scores for the whole batch when the call fails — filtered to semantic score
strictly greater than zero, sorted descending by semantic score (stable),
truncated to the first `k`, each row carrying the semantic score. -/
def semanticRows (llm : LLMOracle) (k : Nat) (companies : List Company)
    (incentive : Incentive) : List MatchRow :=
  match incentive.ai_description with
  | AiDesc.record d =>
    let cands := ruleCandidates d companies
    if cands.isEmpty then []
    else
      let items : List RespItem := match llm incentive cands with
        | LLMResp.fail => cands.map (fun company => (⟨some company.nif_code, some 0⟩ : RespItem))
        | LLMResp.ok its => its
      let pos := items.filter (fun item => decide (0 < item.score.getD 0))
      let topk := (sortDescStable (fun x => x.score.getD 0) pos).take k
      topk.map (fun item => ⟨incentive.incentive_id, item.nif.getD "", item.score.getD 0⟩)
  | _ => []

/-! Properties of the stable descending sort: it permutes its input, its
output is descending in the key, and elements of equal key keep their
relative order (the filtered-at-one-key-level projection is unchanged) —
the three characteristics of Python `sorted(..., reverse=True)`. -/

theorem insertDesc_perm (key : α → ℚ) (x : α) (l : List α) :
    (insertDesc key x l).Perm (x :: l) := by
  induction l with
  | nil => exact List.Perm.refl _
  | cons y ys ih =>
    unfold insertDesc
    split
    · exact List.Perm.refl _
    · exact (ih.cons y).trans (List.Perm.swap x y ys)

theorem sortDescStable_perm (key : α → ℚ) (l : List α) :
    (sortDescStable key l).Perm l := by
  induction l with
  | nil => exact List.Perm.refl _
  | cons x xs ih => exact (insertDesc_perm key x _).trans (ih.cons x)

theorem mem_insertDesc (key : α → ℚ) (x : α) (l : List α) (a : α) :
    a ∈ insertDesc key x l ↔ a = x ∨ a ∈ l := by
  rw [(insertDesc_perm key x l).mem_iff]
  simp

theorem mem_sortDescStable (key : α → ℚ) (l : List α) (a : α) :
    a ∈ sortDescStable key l ↔ a ∈ l :=
  (sortDescStable_perm key l).mem_iff

theorem pairwise_insertDesc (key : α → ℚ) (x : α) (l : List α)
    (h : l.Pairwise (fun a b => key b ≤ key a)) :
    (insertDesc key x l).Pairwise (fun a b => key b ≤ key a) := by
  induction l with
  | nil => simp [insertDesc]
  | cons y ys ih =>
    rcases List.pairwise_cons.mp h with ⟨hy, hys⟩
    unfold insertDesc
    split
    · refine List.pairwise_cons.mpr ⟨?_, h⟩
      intro b hb
      rcases List.mem_cons.mp hb with rfl | hb
      · assumption
      · exact le_trans (hy b hb) (by assumption)
    · refine List.pairwise_cons.mpr ⟨?_, ih hys⟩
      intro b hb
      rcases (mem_insertDesc key x ys b).mp hb with rfl | hb
      · exact le_of_lt (lt_of_not_le (by assumption))
      · exact hy b hb

theorem sortDescStable_pairwise (key : α → ℚ) (l : List α) :
    (sortDescStable key l).Pairwise (fun a b => key b ≤ key a) := by
  induction l with
  | nil => simp [sortDescStable]
  | cons x xs ih => exact pairwise_insertDesc key x _ ih

theorem filter_insertDesc (key : α → ℚ) (x : α) (l : List α) (q : ℚ) :
    (insertDesc key x l).filter (fun z => decide (key z = q)) =
      if key x = q then x :: l.filter (fun z => decide (key z = q))
      else l.filter (fun z => decide (key z = q)) := by
  induction l with
  | nil => by_cases hx : key x = q <;> simp [insertDesc, List.filter, hx]
  | cons y ys ih =>
    unfold insertDesc
    split
    · by_cases hx : key x = q <;> simp [List.filter_cons, hx]
    · rename_i hyx
      have hlt : key x < key y := lt_of_not_le hyx
      by_cases hx : key x = q <;> by_cases hy : key y = q <;>
        simp [List.filter_cons, hx, hy, ih]
      exact absurd (hx.trans hy.symm) (ne_of_lt hlt)

theorem sortDescStable_filter (key : α → ℚ) (l : List α) (q : ℚ) :
    (sortDescStable key l).filter (fun z => decide (key z = q)) =
      l.filter (fun z => decide (key z = q)) := by
  induction l with
  | nil => simp [sortDescStable]
  | cons x xs ih =>
    unfold sortDescStable
    rw [filter_insertDesc]
    by_cases hx : key x = q <;> simp [List.filter_cons, hx, ih]

/-! Case analysis of the deterministic scorer: each component is either its
full weight or zero, the raw sum lands in a seven-value set, and the
4-decimal rounding is the identity on every reachable value. -/

theorem caeScore_cases (d : Criteria) (c : Company) :
    caeScore d c = 50 ∨ caeScore d c = 0 := by
  unfold caeScore
  split
  · exact Or.inl rfl
  · split
    · exact Or.inl rfl
    · exact Or.inr rfl

theorem locationScore_cases (d : Criteria) (c : Company) :
    locationScore d c = 30 ∨ locationScore d c = 0 := by
  unfold locationScore
  dsimp only
  repeat' split
  all_goals simp

theorem sizeScore_cases (d : Criteria) (c : Company) :
    sizeScore d c = 20 ∨ sizeScore d c = 0 := by
  unfold sizeScore
  dsimp only
  repeat' split
  all_goals simp

theorem matchScoreVal_eq_raw (d : Criteria) (c : Company) :
    matchScoreVal d c =
      ((caeScore d c + locationScore d c + sizeScore d c : ℤ) : ℚ) / 100 := by
  obtain h1 | h1 := caeScore_cases d c <;> obtain h2 | h2 := locationScore_cases d c <;>
    obtain h3 | h3 := sizeScore_cases d c <;>
      rw [matchScoreVal, h1, h2, h3] <;> norm_num [round4, round_eq]

theorem matchScoreVal_cases (d : Criteria) (c : Company) :
    matchScoreVal d c = 0 ∨ matchScoreVal d c = 1/5 ∨
    matchScoreVal d c = 3/10 ∨ matchScoreVal d c = 1/2 ∨
    matchScoreVal d c = 7/10 ∨ matchScoreVal d c = 4/5 ∨
    matchScoreVal d c = 1 := by
  obtain h1 | h1 := caeScore_cases d c <;> obtain h2 | h2 := locationScore_cases d c <;>
    obtain h3 | h3 := sizeScore_cases d c <;>
      rw [matchScoreVal_eq_raw, h1, h2, h3] <;> norm_num

/-! Properties of the rule-stage candidate selection. -/

theorem mem_rule_chain (d : Criteria) (comps : List Company) (n : Nat) (p : Company × ℚ)
    (hp : p ∈ (sortDescStable (fun x : Company × ℚ => x.2)
      ((comps.map (fun company => (company, matchScoreVal d company))).filter
        (fun item => decide (MIN_RULE_SCORE < item.2)))).take n) :
    p.1 ∈ comps ∧ p.2 = matchScoreVal d p.1 ∧ MIN_RULE_SCORE < p.2 := by
  have h1 := List.mem_of_mem_take hp
  have h2 := (mem_sortDescStable _ _ _).mp h1
  have h3 := List.mem_filter.mp h2
  rcases List.mem_map.mp h3.1 with ⟨c0, hc0, hpe⟩
  have hlt : MIN_RULE_SCORE < p.2 := by simpa using h3.2
  cases hpe
  exact ⟨hc0, rfl, hlt⟩

theorem ruleCandidates_mem (d : Criteria) (comps : List Company) (co : Company)
    (h : co ∈ ruleCandidates d comps) :
    co ∈ comps ∧ MIN_RULE_SCORE < matchScoreVal d co := by
  unfold ruleCandidates at h
  dsimp only at h
  rcases List.mem_map.mp h with ⟨p, hp, rfl⟩
  obtain ⟨hm, he, hlt⟩ := mem_rule_chain d comps N p hp
  exact ⟨hm, he ▸ hlt⟩

theorem ruleCandidates_pairwise (d : Criteria) (comps : List Company) :
    (ruleCandidates d comps).Pairwise
      (fun a b => matchScoreVal d b ≤ matchScoreVal d a) := by
  unfold ruleCandidates
  dsimp only
  rw [List.pairwise_map]
  have hs := sortDescStable_pairwise (fun x : Company × ℚ => x.2)
    ((comps.map (fun company => (company, matchScoreVal d company))).filter
      (fun item => decide (MIN_RULE_SCORE < item.2)))
  have ht := List.Pairwise.sublist (List.take_sublist N _) hs
  refine ht.imp_of_mem ?_
  intro p q hp hq hpq
  obtain ⟨_, hep, _⟩ := mem_rule_chain d comps N p hp
  obtain ⟨_, heq, _⟩ := mem_rule_chain d comps N q hq
  rw [← hep, ← heq]
  exact hpq

theorem ruleCandidates_length (d : Criteria) (comps : List Company) :
    (ruleCandidates d comps).length ≤ N := by
  unfold ruleCandidates
  dsimp only
  rw [List.length_map]
  exact List.length_take_le _ _

theorem ruleCandidates_nil (d : Criteria) : ruleCandidates d [] = [] := rfl

/-! Success characterisations of the two partial loops of the semantic
stage. -/

theorem filterPos_ok (items : List RespItem) (r : List RespItem)
    (h : filterPos items = (r, none)) :
    r = items.filter (fun it => decide (0 < it.score.getD 0)) := by
  induction items generalizing r with
  | nil =>
    simp only [filterPos, Prod.mk.injEq] at h
    simp [← h.1]
  | cons it rest ih =>
    cases hsc : it.score with
    | none => simp [filterPos, hsc] at h
    | some s =>
      rcases hre : filterPos rest with ⟨r', e'⟩
      simp only [filterPos, hsc, hre, Prod.mk.injEq] at h
      obtain ⟨h1, h2⟩ := h
      subst h2
      rw [← h1, List.filter_cons, ih r' hre]
      simp [hsc]

theorem insertRows_ok (i : Nat) (items : List RespItem) (rs : List MatchRow)
    (h : insertRows i items = (rs, none)) :
    rs = items.map (fun it => (⟨i, it.nif.getD "", it.score.getD 0⟩ : MatchRow)) := by
  induction items generalizing rs with
  | nil =>
    simp only [insertRows, Prod.mk.injEq] at h
    simp [← h.1]
  | cons it rest ih =>
    cases hn : it.nif with
    | none => simp [insertRows, hn] at h
    | some nif =>
      rcases hre : insertRows i rest with ⟨rs', e'⟩
      simp only [insertRows, hn, hre, Prod.mk.injEq] at h
      obtain ⟨h1, h2⟩ := h
      subst h2
      rw [← h1, List.map_cons, ih rs' hre]
      simp [hn]

/-! Properties of the per-incentive specification `semanticRows`. -/

theorem semanticRows_mem (llm : LLMOracle) (k : Nat) (comps : List Company) (inc : Incentive)
    (r : MatchRow) (hr : r ∈ semanticRows llm k comps inc) :
    r.incentive_id = inc.incentive_id ∧ 0 < r.score := by
  cases hd : inc.ai_description with
  | malformed => simp [semanticRows, hd] at hr
  | nonDict => simp [semanticRows, hd] at hr
  | record d =>
    cases hce : (ruleCandidates d comps).isEmpty with
    | true => simp [semanticRows, hd, hce] at hr
    | false =>
      simp only [semanticRows, hd, hce, Bool.false_eq_true, if_false] at hr
      rcases List.mem_map.mp hr with ⟨it, hit, rfl⟩
      refine ⟨rfl, ?_⟩
      have h1 := List.mem_of_mem_take hit
      have h2 := (mem_sortDescStable _ _ _).mp h1
      have h3 := List.mem_filter.mp h2
      simpa using h3.2

theorem semanticRows_length (llm : LLMOracle) (k : Nat) (comps : List Company)
    (inc : Incentive) : (semanticRows llm k comps inc).length ≤ k := by
  cases hd : inc.ai_description with
  | malformed => simp [semanticRows, hd]
  | nonDict => simp [semanticRows, hd]
  | record d =>
    cases hce : (ruleCandidates d comps).isEmpty with
    | true => simp [semanticRows, hd, hce]
    | false =>
      simp only [semanticRows, hd, hce, Bool.false_eq_true, if_false, List.length_map]
      exact List.length_take_le _ _

theorem semanticRows_sorted (llm : LLMOracle) (k : Nat) (comps : List Company)
    (inc : Incentive) :
    (semanticRows llm k comps inc).Pairwise (fun a b => b.score ≤ a.score) := by
  cases hd : inc.ai_description with
  | malformed => simp [semanticRows, hd]
  | nonDict => simp [semanticRows, hd]
  | record d =>
    cases hce : (ruleCandidates d comps).isEmpty with
    | true => simp [semanticRows, hd, hce]
    | false =>
      simp only [semanticRows, hd, hce, Bool.false_eq_true, if_false]
      rw [List.pairwise_map]
      exact List.Pairwise.sublist (List.take_sublist k _)
        (sortDescStable_pairwise (fun x : RespItem => x.score.getD 0) _)

theorem filterPos_all_some (items : List RespItem) (h : ∀ it ∈ items, it.score.isSome) :
    filterPos items = (items.filter (fun it => decide (0 < it.score.getD 0)), none) := by
  induction items with
  | nil => simp [filterPos]
  | cons it rest ih =>
    rcases hsc : it.score with _ | s
    · have hsome := h it (by simp)
      rw [hsc] at hsome
      simp at hsome
    · simp only [filterPos, hsc]
      rw [ih (fun x hx => h x (List.mem_cons_of_mem it hx))]
      simp [List.filter_cons, hsc]

/-- Zero-score fallback items of the adapter for a batch. -/
def zeroItems (batch : List Company) : List RespItem :=
  batch.map (fun company => (⟨some company.nif_code, some 0⟩ : RespItem))

theorem zeroItems_score_some (batch : List Company) :
    ∀ it ∈ zeroItems batch, it.score.isSome := by
  intro it hit
  rcases List.mem_map.mp hit with ⟨co, _, rfl⟩
  simp

theorem zeroItems_filter_nil (batch : List Company) :
    (zeroItems batch).filter (fun it => decide (0 < it.score.getD 0)) = [] := by
  rw [List.filter_eq_nil_iff]
  intro it hit
  rcases List.mem_map.mp hit with ⟨co, _, rfl⟩
  simp

/-- Refinement of the per-incentive loop body by the specification: when the
body raises no exception, the rows it adds are exactly `semanticRows` and
its adapter invocation is exactly `expectedCall`. -/
theorem processIncentive_ok (llm : LLMOracle) (k : Nat) (comps : List Company) (inc : Incentive)
    (h : (processIncentive llm k comps inc).err = none) :
    (processIncentive llm k comps inc).rows = semanticRows llm k comps inc ∧
    (processIncentive llm k comps inc).call = expectedCall comps inc := by
  cases hd : inc.ai_description with
  | malformed => simp [processIncentive, semanticRows, expectedCall, hd]
  | nonDict =>
    cases hce : comps.isEmpty with
    | true => simp [processIncentive, semanticRows, expectedCall, hd, hce]
    | false => simp [processIncentive, hd, hce] at h
  | record d =>
    cases hun : caesUnhashable d with
    | true =>
      cases hcemp : comps.isEmpty with
      | true =>
        have hcnil : comps = [] := List.isEmpty_iff.mp hcemp
        subst hcnil
        constructor <;>
          simp [processIncentive, semanticRows, expectedCall, hd, hun, ruleCandidates_nil]
      | false => simp [processIncentive, hd, hun, hcemp] at h
    | false =>
    cases hce : (ruleCandidates d comps).isEmpty with
    | true => simp [processIncentive, semanticRows, expectedCall, hd, hun, hce]
    | false =>
      have hne : ruleCandidates d comps ≠ [] := by
        intro hnil
        rw [hnil] at hce
        simp at hce
      cases hobj : d.hasObject with
      | false =>
        simp [processIncentive, hd, hun, hce, score_companies_for_incentive, hobj] at h
      | true =>
        cases hcrit : d.hasCriterios with
        | false =>
          simp [processIncentive, hd, hun, hce, score_companies_for_incentive, hobj, hcrit] at h
        | true =>
          rcases hllm : llm inc (ruleCandidates d comps) with _ | its
          · have hfp := filterPos_all_some _ (zeroItems_score_some (ruleCandidates d comps))
            rw [zeroItems_filter_nil] at hfp
            simp only [zeroItems] at hfp
            have hfn := zeroItems_filter_nil (ruleCandidates d comps)
            simp only [zeroItems] at hfn
            constructor <;>
              simp [processIncentive, hd, hun, hce, score_companies_for_incentive, hobj, hcrit,
                hllm, semanticRows, expectedCall, hne, hfp, hfn,
                List.isEmpty_eq_true, List.map_eq_nil_iff, sortDescStable, insertRows]
          · cases hits : its.isEmpty with
            | true =>
              have hnil : its = [] := List.isEmpty_iff.mp hits
              subst hnil
              constructor <;>
                simp [processIncentive, hd, hun, hce, score_companies_for_incentive, hobj, hcrit,
                  hllm, semanticRows, expectedCall, sortDescStable]
            | false =>
              rcases hfp : filterPos its with ⟨fl, fe⟩
              cases fe with
              | some e =>
                simp [processIncentive, hd, hun, hce, score_companies_for_incentive, hobj, hcrit,
                  hllm, hits, hfp] at h
              | none =>
                rcases hins : insertRows inc.incentive_id
                    ((sortDescStable (fun x : RespItem => x.score.getD 0) fl).take k) with ⟨rs, ie⟩
                cases ie with
                | some e =>
                  simp [processIncentive, hd, hun, hce, score_companies_for_incentive, hobj, hcrit,
                    hllm, hits, hfp, hins] at h
                | none =>
                  have hfl := filterPos_ok its fl hfp
                  have hrs := insertRows_ok inc.incentive_id _ rs hins
                  constructor
                  · simp only [processIncentive, hd, hun, hce, score_companies_for_incentive, hobj,
                      hcrit, hllm, hits, hfp, hins, semanticRows, Bool.false_eq_true,
                      Bool.false_and, if_false, if_true]
                    rw [hrs, hfl]
                  · simp [processIncentive, hd, hun, hce, score_companies_for_incentive, hobj,
                      hcrit, hllm, hits, hfp, hins, expectedCall]

/-- Refinement of the whole per-incentive loop: when no incentive raises,
the session rows are the concatenation of the per-incentive specification
and the adapter invocations are exactly those the specification predicts. -/
theorem processAll_ok (llm : LLMOracle) (k : Nat) (comps : List Company) (incs : List Incentive)
    (h : (processAll llm k comps incs).2.2 = none) :
    (processAll llm k comps incs).1 = incs.flatMap (semanticRows llm k comps) ∧
    (processAll llm k comps incs).2.1 = incs.filterMap (expectedCall comps) := by
  induction incs with
  | nil => simp [processAll]
  | cons inc rest ih =>
    cases herr : (processIncentive llm k comps inc).err with
    | some e => simp [processAll, herr] at h
    | none =>
      obtain ⟨hrows, hcall⟩ := processIncentive_ok llm k comps inc herr
      rcases hres : processAll llm k comps rest with ⟨rs, cs, e⟩
      simp only [processAll, herr, hres] at h ⊢
      subst h
      obtain ⟨ih1, ih2⟩ := ih (by rw [hres])
      rw [hres] at ih1 ih2
      constructor
      · rw [List.flatMap_cons, ← ih1, ← hrows]
      · rw [List.filterMap_cons, ← ih2, hcall]
        cases hec : expectedCall comps inc with
        | none => simp
        | some c => simp

theorem expectedCall_nil (inc : Incentive) : expectedCall [] inc = none := by
  cases hd : inc.ai_description <;> simp [expectedCall, hd, ruleCandidates_nil]

/-- Empty-input early return of `find_and_store_matches` (matching.py lines
69-71): the function returns `None`, raises nothing, performs no mutation —
the `matches` table keeps its previous content — makes no adapter call and
counts zero matches. -/
theorem run_empty (llm : LLMOracle) (k : Nat) (incs : List Incentive) (comps : List Company)
    (db0 : List MatchRow) (h : incs = [] ∨ comps = []) :
    find_and_store_matches llm k incs comps db0 = ⟨Except.ok none, db0, 0, []⟩ := by
  rcases h with h | h <;> subst h <;> simp [find_and_store_matches]

/-- Characterisation of a run that returns: the committed table is the
concatenated per-incentive specification, the adapter calls are those the
specification predicts, and the counter equals the number of committed
rows. -/
theorem run_ok_char (llm : LLMOracle) (k : Nat) (incs : List Incentive) (comps : List Company)
    (db0 : List MatchRow) (hi : incs ≠ []) (hc : comps ≠ [])
    (hok : (find_and_store_matches llm k incs comps db0).result = Except.ok none) :
    (find_and_store_matches llm k incs comps db0).matchesTable =
      incs.flatMap (semanticRows llm k comps) ∧
    (find_and_store_matches llm k incs comps db0).calls =
      incs.filterMap (expectedCall comps) ∧
    (find_and_store_matches llm k incs comps db0).totalMatchesFound =
      (find_and_store_matches llm k incs comps db0).matchesTable.length := by
  rcases hres : processAll llm k comps incs with ⟨rs, cs, e⟩
  have hcond : (incs.isEmpty || comps.isEmpty) = false := by
    simp [List.isEmpty_eq_true, hi, hc]
  cases e with
  | some err =>
    exfalso
    revert hok
    simp [find_and_store_matches, hcond, hres]
  | none =>
    obtain ⟨h1, h2⟩ := processAll_ok llm k comps incs (by rw [hres])
    rw [hres] at h1 h2
    simp only [find_and_store_matches, hcond, Bool.false_eq_true, if_false, hres]
    exact ⟨h1, h2, trivial⟩

/-- The adapter-call log of any run that returns equals the prediction of
the specification, empty-input runs included. -/
theorem run_calls (llm : LLMOracle) (k : Nat) (incs : List Incentive) (comps : List Company)
    (db0 : List MatchRow)
    (hok : (find_and_store_matches llm k incs comps db0).result = Except.ok none) :
    (find_and_store_matches llm k incs comps db0).calls =
      incs.filterMap (expectedCall comps) := by
  by_cases hi : incs = []
  · subst hi
    simp [find_and_store_matches]
  · by_cases hc : comps = []
    · subst hc
      rw [run_empty llm k incs [] db0 (Or.inr rfl)]
      exact (List.filterMap_eq_nil_iff.mpr (fun inc _ => expectedCall_nil inc)).symm
    · exact (run_ok_char llm k incs comps db0 hi hc hok).2.1

/-- Interface contract of the semantic scoring capability as the
specification states it (sections 4.2 and 6): every successfully parsed
response is a list of items whose identifiers are drawn from the candidate
batch without duplicates and whose scores convert to floats in [0, 1].
The code never enforces this; it is an assumption about the external
service. -/
def AdapterContract (llm : LLMOracle) : Prop :=
  ∀ inc batch items, llm inc batch = LLMResp.ok items →
    (∀ it ∈ items, (∃ co ∈ batch, it.nif = some co.nif_code) ∧
      (∃ s, it.score = some s ∧ 0 ≤ s ∧ s ≤ 1)) ∧
    (items.map (fun it => it.nif)).Nodup

theorem semanticRows_contract (llm : LLMOracle) (k : Nat) (comps : List Company)
    (inc : Incentive) (h : AdapterContract llm) :
    (∀ r ∈ semanticRows llm k comps inc, r.score ≤ 1) ∧
    ((semanticRows llm k comps inc).map (fun r => r.company_nif)).Nodup := by
  cases hd : inc.ai_description with
  | malformed => simp [semanticRows, hd]
  | nonDict => simp [semanticRows, hd]
  | record d =>
    cases hce : (ruleCandidates d comps).isEmpty with
    | true => simp [semanticRows, hd, hce]
    | false =>
      simp only [semanticRows, hd, hce, Bool.false_eq_true, if_false]
      rcases hllm : llm inc (ruleCandidates d comps) with _ | its
      · have hfn := zeroItems_filter_nil (ruleCandidates d comps)
        simp only [zeroItems] at hfn
        rw [hfn]
        simp [sortDescStable]
      · obtain ⟨hitems, hnodup⟩ := h inc (ruleCandidates d comps) its hllm
        have hmem : ∀ it ∈ (sortDescStable (fun x : RespItem => x.score.getD 0)
            (its.filter (fun it => decide (0 < it.score.getD 0)))).take k, it ∈ its := by
          intro it hit
          have h1 := List.mem_of_mem_take hit
          have h2 := (mem_sortDescStable _ _ _).mp h1
          exact (List.mem_filter.mp h2).1
        constructor
        · intro r hr
          rcases List.mem_map.mp hr with ⟨it, hit, rfl⟩
          obtain ⟨_, s, hs, _, hs1⟩ := hitems it (hmem it hit)
          simpa [hs] using hs1
        · have hnn1 : ((its.filter (fun it => decide (0 < it.score.getD 0))).map
              (fun it => it.nif)).Nodup :=
            (List.Sublist.map _ (List.filter_sublist its)).nodup hnodup
          have hperm := ((sortDescStable_perm (fun x : RespItem => x.score.getD 0)
            (its.filter (fun it => decide (0 < it.score.getD 0)))).map
              (fun it => it.nif)).symm
          have hnn2 := hperm.nodup hnn1
          have hnn3 := ((List.take_sublist k _).map (fun it : RespItem => it.nif)).nodup hnn2
          rw [List.map_map]
          refine List.Nodup.map_on ?_ (List.Nodup.of_map _ hnn3)
          intro x hx y hy hxy
          obtain ⟨⟨cox, _, hx2⟩, _⟩ := hitems x (hmem x hx)
          obtain ⟨⟨coy, _, hy2⟩, _⟩ := hitems y (hmem y hy)
          apply List.inj_on_of_nodup_map hnn3 hx hy
          simp only [Function.comp] at hxy
          rw [hx2, hy2]
          rw [hx2, hy2] at hxy
          simpa using hxy

theorem flatMap_pairs_nodup (incs : List Incentive) (rows : Incentive → List MatchRow)
    (hids : (incs.map (fun i => i.incentive_id)).Nodup)
    (hid : ∀ inc ∈ incs, ∀ r ∈ rows inc, r.incentive_id = inc.incentive_id)
    (hnif : ∀ inc ∈ incs, ((rows inc).map (fun r => r.company_nif)).Nodup) :
    ((incs.flatMap rows).map (fun r => (r.incentive_id, r.company_nif))).Nodup := by
  induction incs with
  | nil => simp
  | cons inc rest ih =>
    simp only [List.map_cons, List.nodup_cons] at hids
    obtain ⟨hnot, hrest⟩ := hids
    rw [List.flatMap_cons, List.map_append, List.nodup_append]
    refine ⟨?_, ih hrest (fun i hi => hid i (List.mem_cons_of_mem _ hi))
        (fun i hi => hnif i (List.mem_cons_of_mem _ hi)), ?_⟩
    · have hcongr : (rows inc).map (fun r => (r.incentive_id, r.company_nif)) =
          ((rows inc).map (fun r => r.company_nif)).map (fun n => (inc.incentive_id, n)) := by
        rw [List.map_map]
        exact List.map_congr_left
          (fun r hr => by rw [Function.comp, hid inc (List.mem_cons_self _ _) r hr])
      rw [hcongr]
      exact (hnif inc (List.mem_cons_self _ _)).map (fun a b hab => by simpa using hab)
    · intro p hp hp'
      rcases List.mem_map.mp hp with ⟨r, hr, rfl⟩
      rcases List.mem_map.mp hp' with ⟨r', hr', hpr⟩
      rcases List.mem_flatMap.mp hr' with ⟨inc', hinc', hr'mem⟩
      have h1 : r.incentive_id = inc.incentive_id := hid inc (List.mem_cons_self _ _) r hr
      have h2 : r'.incentive_id = inc'.incentive_id :=
        hid inc' (List.mem_cons_of_mem _ hinc') r' hr'mem
      have hfst : r'.incentive_id = r.incentive_id := congrArg Prod.fst hpr
      apply hnot
      have : inc.incentive_id = inc'.incentive_id := by rw [← h1, ← hfst, h2]
      rw [this]
      exact List.mem_map_of_mem _ hinc'

theorem filter_flatMap_semanticRows (llm : LLMOracle) (k : Nat) (comps : List Company)
    (incs : List Incentive) (hids : (incs.map (fun i => i.incentive_id)).Nodup)
    (inc : Incentive) (hmem : inc ∈ incs) :
    ((incs.flatMap (semanticRows llm k comps)).filter
      (fun r => r.incentive_id == inc.incentive_id)) = semanticRows llm k comps inc := by
  induction incs with
  | nil => cases hmem
  | cons inc' rest ih =>
    simp only [List.map_cons, List.nodup_cons] at hids
    obtain ⟨hnot, hrest⟩ := hids
    rw [List.flatMap_cons, List.filter_append]
    rcases List.mem_cons.mp hmem with rfl | hmem'
    · have h1 : (semanticRows llm k comps inc).filter
          (fun r => r.incentive_id == inc.incentive_id) = semanticRows llm k comps inc := by
        rw [List.filter_eq_self]
        intro r hr
        simp [(semanticRows_mem llm k comps inc r hr).1]
      have h2 : (rest.flatMap (semanticRows llm k comps)).filter
          (fun r => r.incentive_id == inc.incentive_id) = [] := by
        rw [List.filter_eq_nil_iff]
        intro r hr
        rcases List.mem_flatMap.mp hr with ⟨i2, hi2, hri⟩
        have hrid := (semanticRows_mem llm k comps i2 r hri).1
        simp only [hrid, beq_iff_eq]
        intro heq
        apply hnot
        rw [← heq]
        exact List.mem_map_of_mem _ hi2
      rw [h1, h2, List.append_nil]
    · have h2 : (semanticRows llm k comps inc').filter
          (fun r => r.incentive_id == inc.incentive_id) = [] := by
        rw [List.filter_eq_nil_iff]
        intro r hr
        have hrid := (semanticRows_mem llm k comps inc' r hr).1
        simp only [hrid, beq_iff_eq]
        intro heq
        apply hnot
        rw [heq]
        exact List.mem_map_of_mem _ hmem'
      rw [h2, List.nil_append]
      exact ih hrest hmem'

/-- Claim C1 (amended): over every criteria record whose `caes` list (when
it is a list) contains only hashable elements — absent or otherwise
malformed sub-fields still degrade to permissive defaults — and every
company record, the deterministic scorer returns, never raises: its value
`matchScoreVal` lies in [0, 1] and is a fixed point of rounding to 4
decimal places.  Purity and determinism hold by construction of the
embedding.  (The original unconditional totality claim is refuted by
`C1_counterexample`: a `caes` list holding an unhashable element makes
`set(caes_value)` raise an uncaught `TypeError`.) -/
theorem C1_amended_score_total_on_hashable_caes (d : Criteria) (c : Company)
    (hun : caesUnhashable d = false) :
    calculate_match_score d c = Except.ok (matchScoreVal d c) ∧
    0 ≤ matchScoreVal d c ∧ matchScoreVal d c ≤ 1 ∧
    round4 (matchScoreVal d c) = matchScoreVal d c := by
  refine ⟨by simp [calculate_match_score, hun], ?_⟩
  rcases matchScoreVal_cases d c with h | h | h | h | h | h | h <;>
    rw [h] <;> norm_num [round4, round_eq]

/-- Claim C10: for every criteria record and every company record (employee
counts are integers in this model, as the loader guarantees), the value the
deterministic scorer returns — wherever it returns, third conjunct — is one
of exactly the seven values 0, 0.2, 0.3, 0.5, 0.7, 0.8, 1 — the possible
sums of subsets of the weight set {50, 30, 20} divided by 100 — and equals
the unrounded normalised sum, so the 4-decimal rounding in the scorer
never changes the value. -/
theorem C10_score_seven_values (d : Criteria) (c : Company) :
    matchScoreVal d c ∈ ([0, 1/5, 3/10, 1/2, 7/10, 4/5, 1] : List ℚ) ∧
    matchScoreVal d c =
      ((caeScore d c + locationScore d c + sizeScore d c : ℤ) : ℚ) / 100 ∧
    (calculate_match_score d c = Except.ok (matchScoreVal d c) ∨
      calculate_match_score d c = Except.error "TypeError: unhashable caes element") := by
  refine ⟨?_, matchScoreVal_eq_raw d c, ?_⟩
  · rcases matchScoreVal_cases d c with h | h | h | h | h | h | h <;> simp [h]
  · cases hun : caesUnhashable d with
    | true => right; simp [calculate_match_score, hun]
    | false => left; simp [calculate_match_score, hun]

/-- Claim C8: the industry dimension of the deterministic score.  The
company code set is the primary code joined with the parsed secondary
codes; absent or malformed secondary codes contribute the empty set rather
than an error; the 50-point weight is awarded exactly when the incentive
declares no applicable codes or the two code sets intersect; and the full
score is the rounded normalised sum this component participates in. -/
theorem C8_industry_dimension (d : Criteria) (c : Company) :
    companyCaes c = c.cae_primary_code :: secondaryCodes c ∧
    secondaryCodes { c with cae_secondary_codes := SecondaryCodes.absent } = [] ∧
    secondaryCodes { c with cae_secondary_codes := SecondaryCodes.malformed } = [] ∧
    (caeScore d c = 50 ↔
      (incentiveCaes d = [] ∨ ∃ x ∈ companyCaes c, x ∈ incentiveCaes d)) ∧
    (caeScore d c = 50 ∨ caeScore d c = 0) ∧
    calculate_match_score d c =
      (if caesUnhashable d then Except.error "TypeError: unhashable caes element"
        else Except.ok
          (round4 (((caeScore d c + locationScore d c + sizeScore d c : ℤ) : ℚ) / 100))) := by
  refine ⟨rfl, rfl, rfl, ?_, caeScore_cases d c, rfl⟩
  unfold caeScore
  split
  · rename_i hemp
    simp only [List.isEmpty_eq_true] at hemp
    simp [hemp]
  · rename_i hemp
    simp only [List.isEmpty_eq_true] at hemp
    split
    · rename_i hany
      simp only [List.any_eq_true] at hany
      constructor
      · intro _
        right
        rcases hany with ⟨x, hx, hcont⟩
        exact ⟨x, hx, by simpa using hcont⟩
      · intro _
        rfl
    · rename_i hany
      simp only [List.any_eq_true] at hany
      constructor
      · intro h0
        exact absurd h0 (by norm_num)
      · intro h
        rcases h with h | h
        · exact absurd h hemp
        · rcases h with ⟨x, hx, hmem⟩
          exact absurd ⟨x, hx, by simpa using hmem⟩ hany

/-- Claim C9: running the orchestrator twice in succession with unchanged
incentive and company inputs and the same deterministic semantic oracle
yields an identical run — in particular an identical Match table — because
the pipeline never reads the previous table content except to delete it,
and the empty-input early return leaves the table unchanged. -/
theorem C9_run_idempotent (llm : LLMOracle) (k : Nat) (incs : List Incentive)
    (comps : List Company) (db0 : List MatchRow) :
    find_and_store_matches llm k incs comps
      (find_and_store_matches llm k incs comps db0).matchesTable =
    find_and_store_matches llm k incs comps db0 := by
  cases hcond : (incs.isEmpty || comps.isEmpty) with
  | true => simp [find_and_store_matches, hcond]
  | false =>
    simp only [find_and_store_matches, hcond, Bool.false_eq_true, if_false]

/-- A loop without an uncaught exception had none in any of its incentive
bodies. -/
theorem processAll_err_none (llm : LLMOracle) (k : Nat) (comps : List Company)
    (incs : List Incentive) (h : (processAll llm k comps incs).2.2 = none) :
    ∀ inc ∈ incs, (processIncentive llm k comps inc).err = none := by
  induction incs with
  | nil => intro inc h2; cases h2
  | cons inc rest ih =>
    intro i hi
    cases herr : (processIncentive llm k comps inc).err with
    | some e => simp [processAll, herr] at h
    | none =>
      rcases hres : processAll llm k comps rest with ⟨rs, cs, e⟩
      simp only [processAll, herr, hres] at h
      rcases List.mem_cons.mp hi with rfl | hi
      · exact herr
      · exact ih (by rw [hres]; exact h) i hi

/-- A returning loop body over a nonempty company list certifies that the
criteria record has no unhashable caes element: otherwise the first scorer
call of the comprehension would have raised. -/
theorem caesUnhashable_false_of_err_none (llm : LLMOracle) (k : Nat)
    (comps : List Company) (inc : Incentive) (d : Criteria)
    (hd : inc.ai_description = AiDesc.record d) (hc : comps ≠ [])
    (herr : (processIncentive llm k comps inc).err = none) :
    caesUnhashable d = false := by
  cases hun : caesUnhashable d with
  | false => rfl
  | true =>
    exfalso
    have hce : comps.isEmpty = false := by
      cases comps
      · exact absurd rfl hc
      · rfl
    simp [processIncentive, hd, hun, hce] at herr

/-- Claim C2: for every incentive processed in a run that returns, the rule
stage scores every company, keeps exactly those strictly above the 0.1
threshold, sorts them descending by score with ties kept in iteration
order (the stable sort `sortDescStable`), takes the first `N = 50`, and the
semantic scorer is invoked at most once per incentive — the call log is a
`filterMap` over the incentive list, one optional entry each — with exactly
that candidate batch, which is nonempty, bounded by 50, above-threshold and
sorted descending; for every scored candidate the scorer returned its value
(no call of the batch raised). -/
theorem C2_rule_stage_funnel (llm : LLMOracle) (k : Nat) (incs : List Incentive)
    (comps : List Company) (db0 : List MatchRow)
    (hok : (find_and_store_matches llm k incs comps db0).result = Except.ok none) :
    (find_and_store_matches llm k incs comps db0).calls =
      incs.filterMap (expectedCall comps) ∧
    ∀ call ∈ (find_and_store_matches llm k incs comps db0).calls,
      ∃ d, call.1.ai_description = AiDesc.record d ∧
        caesUnhashable d = false ∧
        call.2 = ruleCandidates d comps ∧ call.2 ≠ [] ∧ call.2.length ≤ N ∧
        (∀ co ∈ call.2, co ∈ comps ∧
          calculate_match_score d co = Except.ok (matchScoreVal d co) ∧
          MIN_RULE_SCORE < matchScoreVal d co) ∧
        call.2.Pairwise
          (fun a b => matchScoreVal d b ≤ matchScoreVal d a) := by
  have hcalls := run_calls llm k incs comps db0 hok
  refine ⟨hcalls, ?_⟩
  intro call hcall
  rw [hcalls] at hcall
  rcases List.mem_filterMap.mp hcall with ⟨inc, hinc, hec⟩
  cases hd : inc.ai_description with
  | malformed => simp [expectedCall, hd] at hec
  | nonDict => simp [expectedCall, hd] at hec
  | record d =>
    refine ⟨d, ?_⟩
    cases hce : (ruleCandidates d comps).isEmpty with
    | true => simp [expectedCall, hd, hce] at hec
    | false =>
      simp only [expectedCall, hd, hce, Bool.false_eq_true, if_false] at hec
      have hcd := Option.some.inj hec
      subst hcd
      have hne : ruleCandidates d comps ≠ [] := by
        intro hnil
        rw [hnil] at hce
        simp at hce
      have hcomps : comps ≠ [] := by
        rcases List.exists_mem_of_ne_nil _ hne with ⟨co, hco⟩
        exact List.ne_nil_of_mem (ruleCandidates_mem d comps co hco).1
      have hincs : incs ≠ [] := List.ne_nil_of_mem hinc
      have hcond : (incs.isEmpty || comps.isEmpty) = false := by
        simp [List.isEmpty_eq_true, hincs, hcomps]
      have herr : (processIncentive llm k comps inc).err = none := by
        rcases hres : processAll llm k comps incs with ⟨rs, cs, e⟩
        cases e with
        | some err2 =>
          exfalso
          revert hok
          simp [find_and_store_matches, hcond, hres]
        | none => exact processAll_err_none llm k comps incs (by rw [hres]) inc hinc
      have hun := caesUnhashable_false_of_err_none llm k comps inc d hd hcomps herr
      refine ⟨hd, hun, rfl, hne, ruleCandidates_length d comps, ?_,
        ruleCandidates_pairwise d comps⟩
      intro co hco
      exact ⟨(ruleCandidates_mem d comps co hco).1,
        by simp [calculate_match_score, hun],
        (ruleCandidates_mem d comps co hco).2⟩

/-- Claim C3: after a run with `k = 5` that returns, over distinct incentive
identifiers and a nonempty company list, the table rows referencing each
incentive are exactly the per-incentive specification `semanticRows` — the
adapter response filtered to scores strictly greater than 0, sorted
descending by semantic score, truncated to the first 5, each row carrying
the semantic score, not the rule score — hence at most 5 rows per
incentive, every persisted score strictly positive, and the rows in
descending semantic-score order. -/
theorem C3_top_k_semantic_rows (llm : LLMOracle) (incs : List Incentive)
    (comps : List Company) (db0 : List MatchRow)
    (hids : (incs.map (fun i => i.incentive_id)).Nodup)
    (hc : comps ≠ [])
    (hok : (find_and_store_matches llm 5 incs comps db0).result = Except.ok none) :
    ∀ inc ∈ incs,
      (find_and_store_matches llm 5 incs comps db0).matchesTable.filter
          (fun r => r.incentive_id == inc.incentive_id) = semanticRows llm 5 comps inc ∧
      (semanticRows llm 5 comps inc).length ≤ 5 ∧
      (∀ r ∈ semanticRows llm 5 comps inc, 0 < r.score) ∧
      (semanticRows llm 5 comps inc).Pairwise (fun a b => b.score ≤ a.score) := by
  intro inc hmem
  have hi : incs ≠ [] := List.ne_nil_of_mem hmem
  obtain ⟨htab, _, _⟩ := run_ok_char llm 5 incs comps db0 hi hc hok
  refine ⟨?_, semanticRows_length llm 5 comps inc,
    fun r hr => (semanticRows_mem llm 5 comps inc r hr).2,
    semanticRows_sorted llm 5 comps inc⟩
  rw [htab]
  exact filter_flatMap_semanticRows llm 5 comps incs hids inc hmem

/-- Every run either returns `None` or raises, and a run that raises leaves
the table empty: the delete of line 74 was already committed and the
pending inserts are never committed. -/
theorem run_result_cases (llm : LLMOracle) (k : Nat) (incs : List Incentive)
    (comps : List Company) (db0 : List MatchRow) :
    (find_and_store_matches llm k incs comps db0).result = Except.ok none ∨
    (∃ e, (find_and_store_matches llm k incs comps db0).result = Except.error e ∧
      (find_and_store_matches llm k incs comps db0).matchesTable = []) := by
  cases hcond : (incs.isEmpty || comps.isEmpty) with
  | true => left; simp [find_and_store_matches, hcond]
  | false =>
    rcases hres : processAll llm k comps incs with ⟨rs, cs, e⟩
    cases e with
    | some err =>
      right
      exact ⟨err, by simp [find_and_store_matches, hcond, hres],
        by simp [find_and_store_matches, hcond, hres]⟩
    | none => left; simp [find_and_store_matches, hcond, hres]

/-- Claim C4 (amended): when the LLM call itself fails for an incentive —
`generate_content` raising, a timeout, or a response that does not parse as
JSON — the adapter degrades to a zero score for every candidate of the
batch, all of them are excluded by the strictly-positive filter, and the
loop body neither persists a row nor raises for that incentive.  (The
original claim is refuted separately: a response that parses to JSON of the
wrong shape, or an incentive record missing the `object`/`criterios` keys,
raises and the orchestrator crashes.) -/
theorem C4_amended_llm_failure_degrades (llm : LLMOracle) (k : Nat)
    (comps : List Company) (inc : Incentive) (d : Criteria)
    (hd : inc.ai_description = AiDesc.record d)
    (hun : caesUnhashable d = false)
    (hobj : d.hasObject = true) (hcrit : d.hasCriterios = true)
    (hfail : ∀ batch, llm inc batch = LLMResp.fail) :
    score_companies_for_incentive llm inc (ruleCandidates d comps) =
      Except.ok ((ruleCandidates d comps).map
        (fun company => (⟨some company.nif_code, some 0⟩ : RespItem))) ∧
    (processIncentive llm k comps inc).rows = [] ∧
    (processIncentive llm k comps inc).err = none := by
  refine ⟨by simp [score_companies_for_incentive, hd, hobj, hcrit, hfail], ?_⟩
  cases hce : (ruleCandidates d comps).isEmpty with
  | true => constructor <;> simp [processIncentive, hd, hun, hce]
  | false =>
    have hne : ruleCandidates d comps ≠ [] := by
      intro hnil
      rw [hnil] at hce
      simp at hce
    have hfp := filterPos_all_some _ (zeroItems_score_some (ruleCandidates d comps))
    rw [zeroItems_filter_nil] at hfp
    simp only [zeroItems] at hfp
    constructor <;>
      simp [processIncentive, hd, hun, hce, score_companies_for_incentive, hobj, hcrit, hfail,
        hfp, sortDescStable, insertRows, hne, List.isEmpty_eq_true, List.map_eq_nil_iff]

/-- Claim C5 (amended): after any run with at least one incentive and one
company, over distinct incentive identifiers, and with a semantic adapter
honouring its interface contract — parsed responses list each candidate at
most once, with identifiers drawn from the batch and scores in [0, 1] —
the Match table holds at most one row per (incentive, company) pair, every
persisted score lies in [0, 1], and every row comes from the current run
(the table was cleared first; a crashed run leaves it empty). -/
theorem C5_amended_table_invariant (llm : LLMOracle) (k : Nat) (incs : List Incentive)
    (comps : List Company) (db0 : List MatchRow)
    (hi : incs ≠ []) (hc : comps ≠ [])
    (hids : (incs.map (fun i => i.incentive_id)).Nodup)
    (hcontract : AdapterContract llm) :
    (((find_and_store_matches llm k incs comps db0).matchesTable).map
      (fun r => (r.incentive_id, r.company_nif))).Nodup ∧
    (∀ r ∈ (find_and_store_matches llm k incs comps db0).matchesTable,
      0 ≤ r.score ∧ r.score ≤ 1) ∧
    (∀ r ∈ (find_and_store_matches llm k incs comps db0).matchesTable,
      r ∈ incs.flatMap (semanticRows llm k comps)) := by
  rcases run_result_cases llm k incs comps db0 with hok | ⟨e, _, htab⟩
  · obtain ⟨htab, _, _⟩ := run_ok_char llm k incs comps db0 hi hc hok
    rw [htab]
    refine ⟨?_, ?_, fun r hr => hr⟩
    · exact flatMap_pairs_nodup incs (semanticRows llm k comps) hids
        (fun inc _ r hr => (semanticRows_mem llm k comps inc r hr).1)
        (fun inc _ => (semanticRows_contract llm k comps inc hcontract).2)
    · intro r hr
      rcases List.mem_flatMap.mp hr with ⟨inc, hinc, hrin⟩
      exact ⟨le_of_lt (semanticRows_mem llm k comps inc r hrin).2,
        (semanticRows_contract llm k comps inc hcontract).1 r hrin⟩
  · rw [htab]
    exact ⟨by simp, by simp, by simp⟩

/-- Claim C6 (amended): the orchestrator counts the rows it persists in
`total_matches_found` — equal to the number of rows in the table after a
run that returns with nonempty inputs — and prints it, but the function
returns `None`, never the count. -/
theorem C6_amended_counts_but_returns_none (llm : LLMOracle) (k : Nat)
    (incs : List Incentive) (comps : List Company) (db0 : List MatchRow)
    (hi : incs ≠ []) (hc : comps ≠ [])
    (hok : (find_and_store_matches llm k incs comps db0).result = Except.ok none) :
    (∀ n : Nat, (find_and_store_matches llm k incs comps db0).result ≠
      Except.ok (some n)) ∧
    (find_and_store_matches llm k incs comps db0).totalMatchesFound =
      (find_and_store_matches llm k incs comps db0).matchesTable.length := by
  refine ⟨?_, (run_ok_char llm k incs comps db0 hi hc hok).2.2⟩
  intro n hcontra
  rw [hok] at hcontra
  exact Option.noConfusion (Except.ok.inj hcontra)

/-- Claim C7 (amended): with an empty incentive or company list the run
returns early — returning `None`, not 0 — raises nothing and performs no
mutation at all: the Match table keeps its previous content, no adapter
call is made and the counter stays 0. -/
theorem C7_amended_empty_input_noop (llm : LLMOracle) (k : Nat)
    (incs : List Incentive) (comps : List Company) (db0 : List MatchRow)
    (h : incs = [] ∨ comps = []) :
    find_and_store_matches llm k incs comps db0 =
      ⟨Except.ok none, db0, 0, []⟩ :=
  run_empty llm k incs comps db0 h

/-! Concrete fixtures used by the witnesses and counterexamples: a fully
permissive criteria record (no codes, no scope, no dimension — every
company scores 1.0), one company, and a family of oracles. -/

def dPermissive : Criteria := ⟨PyVal.vNone, PyVal.vNone, PyVal.vNone, true, true⟩

def incOne : Incentive := ⟨1, AiDesc.record dPermissive⟩

def cOne : Company := ⟨"n1", "c1", SecondaryCodes.absent, none, 0⟩

/-- Oracle answering every prompt with one well-formed item of score 1. -/
def llmWit : LLMOracle := fun _ _ => LLMResp.ok [⟨some "n1", some 1⟩]

/-- Oracle whose call always fails (exception, timeout, unparseable text). -/
def llmFail : LLMOracle := fun _ _ => LLMResp.fail

/-- Oracle returning valid JSON of the wrong shape: the item has no usable
score, so `float(item[score])` raises in the orchestrator. -/
def llmBadScore : LLMOracle := fun _ _ => LLMResp.ok [⟨some "n1", none⟩]

/-- Oracle returning an out-of-range score. -/
def llmBig : LLMOracle := fun _ _ => LLMResp.ok [⟨some "n1", some 2⟩]

/-- Oracle returning the same candidate twice. -/
def llmDup : LLMOracle := fun _ _ => LLMResp.ok [⟨some "n1", some 1⟩, ⟨some "n1", some 1⟩]

/-- Criteria record whose dictionary lacks the `object` key. -/
def dNoObject : Criteria := ⟨PyVal.vNone, PyVal.vNone, PyVal.vNone, false, true⟩

def incNoObject : Incentive := ⟨1, AiDesc.record dNoObject⟩

/-- Criteria record whose `caes` list holds an unhashable element, such as
the valid JSON `[["62"]]`. -/
def dUnhashable : Criteria :=
  ⟨PyVal.vList [PyElem.unhashable], PyVal.vNone, PyVal.vNone, true, true⟩

def incUnhashable : Incentive := ⟨1, AiDesc.record dUnhashable⟩

theorem incOne_desc : incOne.ai_description = AiDesc.record dPermissive := rfl

theorem incOne_id : incOne.incentive_id = 1 := rfl

theorem dPermissive_obj : dPermissive.hasObject = true := rfl

theorem dPermissive_crit : dPermissive.hasCriterios = true := rfl

theorem incNoObject_desc : incNoObject.ai_description = AiDesc.record dNoObject := rfl

theorem dNoObject_obj : dNoObject.hasObject = false := rfl

theorem unhash_dPermissive : caesUnhashable dPermissive = false := rfl

theorem unhash_dNoObject : caesUnhashable dNoObject = false := rfl

theorem llmWit_eq (i : Incentive) (b : List Company) :
    llmWit i b = LLMResp.ok [⟨some "n1", some 1⟩] := rfl

theorem llmBadScore_eq (i : Incentive) (b : List Company) :
    llmBadScore i b = LLMResp.ok [⟨some "n1", none⟩] := rfl

theorem llmBig_eq (i : Incentive) (b : List Company) :
    llmBig i b = LLMResp.ok [⟨some "n1", some 2⟩] := rfl

theorem llmDup_eq (i : Incentive) (b : List Company) :
    llmDup i b = LLMResp.ok [⟨some "n1", some 1⟩, ⟨some "n1", some 1⟩] := rfl

theorem score_dPermissive_cOne : matchScoreVal dPermissive cOne = 1 := by
  norm_num [matchScoreVal, caeScore, locationScore, sizeScore, incentiveCaes,
    companyCaes, secondaryCodes, round4, round_eq, strIn, containsSub, strLower,
    dPermissive, cOne]

theorem threshold_dPermissive_cOne :
    decide (MIN_RULE_SCORE < matchScoreVal dPermissive cOne) = true := by
  rw [score_dPermissive_cOne]
  norm_num [MIN_RULE_SCORE]

theorem ruleCandidates_one : ruleCandidates dPermissive [cOne] = [cOne] := by
  simp [ruleCandidates, threshold_dPermissive_cOne, sortDescStable, insertDesc, N,
    List.take_of_length_le]

theorem score_dNoObject_cOne : matchScoreVal dNoObject cOne = 1 := by
  norm_num [matchScoreVal, caeScore, locationScore, sizeScore, incentiveCaes,
    companyCaes, secondaryCodes, round4, round_eq, strIn, containsSub, strLower,
    dNoObject, cOne]

theorem threshold_dNoObject_cOne :
    decide (MIN_RULE_SCORE < matchScoreVal dNoObject cOne) = true := by
  rw [score_dNoObject_cOne]
  norm_num [MIN_RULE_SCORE]

theorem ruleCandidates_one_noObject : ruleCandidates dNoObject [cOne] = [cOne] := by
  simp [ruleCandidates, threshold_dNoObject_cOne, sortDescStable, insertDesc, N,
    List.take_of_length_le]

theorem runWit_result_ok :
    (find_and_store_matches llmWit 5 [incOne] [cOne] []).result = Except.ok none := by
  simp [find_and_store_matches, processAll, processIncentive, incOne_desc, incOne_id,
    score_companies_for_incentive, dPermissive_obj, dPermissive_crit, llmWit_eq,
    unhash_dPermissive, filterPos, insertRows, sortDescStable, insertDesc,
    ruleCandidates_one, List.take_of_length_le]

theorem runWit_table :
    (find_and_store_matches llmWit 5 [incOne] [cOne] []).matchesTable =
      [⟨1, "n1", 1⟩] := by
  simp [find_and_store_matches, processAll, processIncentive, incOne_desc, incOne_id,
    score_companies_for_incentive, dPermissive_obj, dPermissive_crit, llmWit_eq,
    unhash_dPermissive, filterPos, insertRows, sortDescStable, insertDesc,
    ruleCandidates_one, List.take_of_length_le]

theorem runBig_table :
    (find_and_store_matches llmBig 5 [incOne] [cOne] []).matchesTable =
      [⟨1, "n1", 2⟩] := by
  have h02 : (0 : ℚ) < 2 := by norm_num
  simp [find_and_store_matches, processAll, processIncentive, incOne_desc, incOne_id,
    score_companies_for_incentive, dPermissive_obj, dPermissive_crit, llmBig_eq,
    unhash_dPermissive, filterPos, insertRows, sortDescStable, insertDesc,
    ruleCandidates_one, List.take_of_length_le, h02]

theorem runDup_table :
    (find_and_store_matches llmDup 5 [incOne] [cOne] []).matchesTable =
      [⟨1, "n1", 1⟩, ⟨1, "n1", 1⟩] := by
  simp [find_and_store_matches, processAll, processIncentive, incOne_desc, incOne_id,
    score_companies_for_incentive, dPermissive_obj, dPermissive_crit, llmDup_eq,
    unhash_dPermissive, filterPos, insertRows, sortDescStable, insertDesc,
    ruleCandidates_one, List.take_of_length_le]

theorem runBadScore_result :
    (find_and_store_matches llmBadScore 5 [incOne] [cOne] []).result =
      Except.error "float(item[score]) raised" := by
  simp [find_and_store_matches, processAll, processIncentive, incOne_desc, incOne_id,
    score_companies_for_incentive, dPermissive_obj, dPermissive_crit, llmBadScore_eq,
    unhash_dPermissive, filterPos, ruleCandidates_one]

theorem runNoObject_result :
    (find_and_store_matches llmFail 5 [incNoObject] [cOne] []).result =
      Except.error "KeyError: object" := by
  simp [find_and_store_matches, processAll, processIncentive, incNoObject_desc,
    score_companies_for_incentive, dNoObject_obj, unhash_dNoObject,
    ruleCandidates_one_noObject]

/-- Claim C2 witness: a run with one incentive and one company returns, and
the theorem applies to it. -/
theorem C2_witness :
    (find_and_store_matches llmWit 5 [incOne] [cOne] []).result = Except.ok none ∧
    (find_and_store_matches llmWit 5 [incOne] [cOne] []).calls =
      [incOne].filterMap (expectedCall [cOne]) :=
  ⟨runWit_result_ok, (C2_rule_stage_funnel llmWit 5 [incOne] [cOne] [] runWit_result_ok).1⟩

/-- Claim C3 witness: the theorem applied to the same concrete run. -/
theorem C3_witness :
    (find_and_store_matches llmWit 5 [incOne] [cOne] []).matchesTable.filter
        (fun r => r.incentive_id == incOne.incentive_id) =
      semanticRows llmWit 5 [cOne] incOne :=
  ((C3_top_k_semantic_rows llmWit [incOne] [cOne] [] (by simp) (by simp)
    runWit_result_ok) incOne (by simp)).1

/-- Claim C4 witness: the amended theorem applied to a concrete incentive
whose LLM call always fails. -/
theorem C4_witness :
    score_companies_for_incentive llmFail incOne (ruleCandidates dPermissive [cOne]) =
      Except.ok ((ruleCandidates dPermissive [cOne]).map
        (fun company => (⟨some company.nif_code, some 0⟩ : RespItem))) ∧
    (processIncentive llmFail 5 [cOne] incOne).rows = [] ∧
    (processIncentive llmFail 5 [cOne] incOne).err = none :=
  C4_amended_llm_failure_degrades llmFail 5 [cOne] incOne dPermissive rfl rfl rfl rfl
    (fun _ => rfl)

/-- Claim C5 witness: the amended invariant applied to a concrete run with a
contract-honouring (always failing, hence vacuously conforming) adapter. -/
theorem C5_witness :
    (((find_and_store_matches llmFail 5 [incOne] [cOne] []).matchesTable).map
      (fun r => (r.incentive_id, r.company_nif))).Nodup :=
  (C5_amended_table_invariant llmFail 5 [incOne] [cOne] [] (by simp) (by simp) (by simp)
    (fun inc batch items h => LLMResp.noConfusion h)).1

/-- Claim C6 witness: the amended theorem applied to a run persisting one
row. -/
theorem C6_witness :
    (find_and_store_matches llmWit 5 [incOne] [cOne] []).totalMatchesFound =
      (find_and_store_matches llmWit 5 [incOne] [cOne] []).matchesTable.length :=
  (C6_amended_counts_but_returns_none llmWit 5 [incOne] [cOne] [] (by simp) (by simp)
    runWit_result_ok).2

/-- Claim C7 witness: the amended theorem applied to an empty incentive
list over a nonempty prior table. -/
theorem C7_witness :
    find_and_store_matches llmWit 5 [] [cOne] [⟨9, "z", 2⟩] =
      ⟨Except.ok none, [⟨9, "z", 2⟩], 0, []⟩ :=
  C7_amended_empty_input_noop llmWit 5 [] [cOne] [⟨9, "z", 2⟩] (Or.inl rfl)

/-- Claim C4 counterexample: two semantic-step failures the claim says are
degraded to zero scores but that in fact crash the run — a response that is
valid JSON of the wrong shape (an item without a usable score), and an
incentive record missing the `object` key. -/
theorem C4_counterexample :
    (find_and_store_matches llmBadScore 5 [incOne] [cOne] []).result =
      Except.error "float(item[score]) raised" ∧
    (find_and_store_matches llmFail 5 [incNoObject] [cOne] []).result =
      Except.error "KeyError: object" :=
  ⟨runBadScore_result, runNoObject_result⟩

/-- Claim C5 counterexample: three concrete runs violating the invariant as
stated — an empty-input run keeps a stale out-of-range row, an adapter
returning score 2 persists a score outside [0, 1], and an adapter repeating
a candidate persists two rows for the same (incentive, company) pair. -/
theorem C5_counterexample :
    (∃ r ∈ (find_and_store_matches llmWit 5 [] [cOne]
      [(⟨9, "z", 2⟩ : MatchRow)]).matchesTable, 1 < r.score) ∧
    (∃ r ∈ (find_and_store_matches llmBig 5 [incOne] [cOne] []).matchesTable,
      1 < r.score) ∧
    ¬ (((find_and_store_matches llmDup 5 [incOne] [cOne] []).matchesTable.map
      (fun r => (r.incentive_id, r.company_nif))).Nodup) := by
  refine ⟨?_, ?_, ?_⟩
  · rw [run_empty llmWit 5 [] [cOne] _ (Or.inl rfl)]
    exact ⟨⟨9, "z", 2⟩, by simp, by norm_num⟩
  · rw [runBig_table]
    exact ⟨⟨1, "n1", 2⟩, by simp, by norm_num⟩
  · rw [runDup_table]
    simp

/-- Claim C6 counterexample: a run that persists one Match row yet returns
`None` (the model of the bare `return` / fall-through of the Python
function), not the count 1. -/
theorem C6_counterexample :
    (find_and_store_matches llmWit 5 [incOne] [cOne] []).matchesTable.length = 1 ∧
    (find_and_store_matches llmWit 5 [incOne] [cOne] []).result = Except.ok none ∧
    (none : Option Nat) ≠ some 1 := by
  refine ⟨?_, runWit_result_ok, by simp⟩
  rw [runWit_table]
  rfl

/-- Claim C7 counterexample: an empty-incentive run returns `None`, not the
value 0 the claim states. -/
theorem C7_counterexample :
    (find_and_store_matches llmWit 5 [] [cOne] [(⟨9, "z", 2⟩ : MatchRow)]).result =
      Except.ok none ∧
    (none : Option Nat) ≠ some 0 := by
  refine ⟨?_, by simp⟩
  rw [run_empty llmWit 5 [] [cOne] _ (Or.inl rfl)]

/-- Claim C1 counterexample: a criteria dict whose `caes` list holds an
unhashable element — valid JSON such as the nested list in `[["62"]]` —
makes the scorer raise `TypeError` at `set(caes_value)` (matching.py line
21, caught nowhere), for any company, and the exception propagates out of
the whole run: the scorer is not total over malformed sub-fields. -/
theorem C1_counterexample :
    calculate_match_score dUnhashable cOne =
      Except.error "TypeError: unhashable caes element" ∧
    (find_and_store_matches llmWit 5 [incUnhashable] [cOne] []).result =
      Except.error "TypeError: unhashable caes element" :=
  ⟨rfl, rfl⟩

/-- Claim C1 witness: the amended theorem applied to a concrete
hashable-caes criteria record and company. -/
theorem C1_witness :
    caesUnhashable dPermissive = false ∧
    (calculate_match_score dPermissive cOne = Except.ok (matchScoreVal dPermissive cOne) ∧
      0 ≤ matchScoreVal dPermissive cOne ∧ matchScoreVal dPermissive cOne ≤ 1 ∧
      round4 (matchScoreVal dPermissive cOne) = matchScoreVal dPermissive cOne) :=
  ⟨rfl, C1_amended_score_total_on_hashable_caes dPermissive cOne rfl⟩
